import Mathlib

/-!
Shallow embedding of the Double-DQN agent (src/Double-DQN/ddqn_agent.py):
the circular experience store (a deque with `maxlen=buffer_size`), the
frame-history encoder `_encode_state`, batch assembly (`get_experiences`,
`sample`), the update scheduler (`Agent.step`), the epsilon-greedy policy
selector (`Agent.act`), the Double-DQN target computation (`Agent.learn`)
and the Polyak soft update (`Agent.soft_update`).

Raw observation frames are modelled as lists of rationals; a network's
flattened parameter vector likewise.  Randomness (`random.sample`,
`random.random`, `random.choice`) is modelled by passing the outcome of
the draw as an explicit argument, constrained by the hypotheses the
Python library guarantees for it.
-/

namespace DDQN

/-- A raw observation frame (tensor flattened to a list of rationals). -/
abbrev Frame := List ℚ

/-- One stored experience tuple, mirroring
`namedtuple("Experience", ["state", "action", "reward", "next_state", "done"])`. -/
structure Transition where
  state : Frame
  action : Nat
  reward : ℚ
  next_state : Frame
  done : Bool
deriving DecidableEq, Repr

/-- Default transition, used only as the `getD` fallback for out-of-range
indices (the Python code never reads out of range on the paths we verify). -/
def dfltT : Transition := ⟨[], 0, 0, [], false⟩

/-! ### Circular Experience Store: `deque(maxlen=buffer_size)` plus `add` -/

/-- Model of `ReplayBuffer.add`: `deque(maxlen=cap).append e` evicts the oldest
element when the buffer is full. -/
def addT (cap : Nat) (mem : List Transition) (e : Transition) : List Transition :=
  if mem.length = cap then mem.tail ++ [e] else mem ++ [e]

/-- Insert a whole sequence of transitions in order, via `addT`. -/
def addAll (cap : Nat) (mem : List Transition) (es : List Transition) : List Transition :=
  es.foldl (addT cap) mem

/-! ### Frame-History Encoder: `ReplayBuffer._encode_state` -/

/-- Model of `self.memory[j % n]` — buffer access with the wrap-around indexing the
source uses inside `_encode_state`. -/
def getT (mem : List Transition) (j : Nat) : Transition :=
  mem.getD (j % mem.length) dfltT

/-- Model of `np.zeros_like(self.memory[0].state)`: a zero frame of the same shape as
the first stored frame. -/
def zeroFrame (mem : List Transition) : Frame :=
  (mem.getD 0 dfltT).state.map (fun _ => 0)

/-- The `start_idx` computed by `_encode_state`: first clamp
`end_idx - frame_history` at 0 (truncated `Nat` subtraction does exactly
this), then scan `range(start_idx, end_idx - 1)` and move the start past
the most recent `done=True` transition. -/
def encodeStart (mem : List Transition) (H idx : Nat) : Nat :=
  (List.range' (idx + 1 - H) (idx - (idx + 1 - H))).foldl
    (fun acc j => if (getT mem j).done then j + 1 else acc) (idx + 1 - H)

/-- The list of frames assembled by `_encode_state` before concatenation:
`missing_context` zero frames, then the stored frames from `start_idx`
up to `end_idx` (exclusive), each read via `idx % n`.  The two branches of
the source's `if start_idx < 0 or missing_context > 0` append the same
stored frames and differ only in the zero prefix, which is empty exactly
when `missing_context == 0`. -/
def encodeFrames (mem : List Transition) (H idx : Nat) : List Frame :=
  List.replicate (H - (idx + 1 - encodeStart mem H idx)) (zeroFrame mem) ++
    (List.range' (encodeStart mem H idx) (idx + 1 - encodeStart mem H idx)).map
      (fun j => (getT mem j).state)

/-- Model of `_encode_state` proper: concatenate the frames and normalize by 255. -/
def encodeState (mem : List Transition) (H idx : Nat) : List ℚ :=
  (encodeFrames mem H idx).flatten.map (fun x => x / 255)

/-! ### Sampler: `get_experiences` and `sample` -/

/-- One element of the list built by `ReplayBuffer.get_experiences`. -/
structure Encoded where
  state : List ℚ
  action : Nat
  reward : ℚ
  next_state : List ℚ
  done : Bool
deriving DecidableEq, Repr

/-- Model of `ReplayBuffer.get_experiences`: for each sampled index, the encoded
state at `idx`, the encoded next state at `idx+1`, and the stored action,
reward and done flag at `idx`. -/
def getExperiences (mem : List Transition) (H : Nat) (idxs : List Nat) : List Encoded :=
  idxs.map (fun idx =>
    { state := encodeState mem H idx
      action := (mem.getD idx dfltT).action
      reward := (mem.getD idx dfltT).reward
      next_state := encodeState mem H (idx + 1)
      done := (mem.getD idx dfltT).done })

/-- Model of `ReplayBuffer.sample` after the random draw: stack the five fields of
the encoded experiences; the boolean done flags are converted to 0/1
numerics (`astype(np.uint8)` then `float`).  The outcome of
`random.sample(range(len(memory)), k=batch_size)` is passed in as `idxs`. -/
def sampleStacks (mem : List Transition) (H : Nat) (idxs : List Nat) :
    List (List ℚ) × List Nat × List ℚ × List (List ℚ) × List ℚ :=
  let es := getExperiences mem H idxs
  (es.map (·.state), es.map (·.action), es.map (·.reward),
   es.map (·.next_state), es.map (fun e => if e.done then (1 : ℚ) else 0))

/-! ### Update Scheduler: `Agent.step` -/

def BUFFER_SIZE : Nat := 100000
def BATCH_SIZE : Nat := 32
def UPDATE_EVERY : Nat := 4

/-- The scheduler-relevant state of an `Agent`: the step counter and the
replay memory. -/
structure AgentState where
  tStep : Nat
  memory : List Transition
deriving Repr

/-- Model of `Agent.__init__`: `t_step = 0`, empty replay memory. -/
def initAgent : AgentState := ⟨0, []⟩

/-- Model of `Agent.step`: record the transition, advance the counter mod
`UPDATE_EVERY`, and report whether a learning step is triggered
(counter wrapped to 0 and `len(memory) > BATCH_SIZE`). -/
def stepAgent (s : AgentState) (e : Transition) : AgentState × Bool :=
  let mem' := addT BUFFER_SIZE s.memory e
  let t' := (s.tStep + 1) % UPDATE_EVERY
  (⟨t', mem'⟩, decide (t' = 0 ∧ BATCH_SIZE < mem'.length))

/-- The sequence of learn-triggered flags produced by a sequence of calls
to `Agent.step`. -/
def runFlags (s : AgentState) (es : List Transition) : List Bool :=
  match es with
  | [] => []
  | e :: rest =>
      let r := stepAgent s e
      r.2 :: runFlags r.1 rest

/-- The agent state after a sequence of calls to `Agent.step`. -/
def runAgent (s : AgentState) (es : List Transition) : AgentState :=
  es.foldl (fun s e => (stepAgent s e).1) s

/-! ### `np.argmax` / `torch.max(dim)[1]`: index of the first maximum -/

/-- Index of the first maximal element of a list (`np.argmax`, and the
index returned by `torch.max(·, 1)`; both return the first maximal index). -/
def argmaxList : List ℚ → Nat
  | [] => 0
  | [_] => 0
  | x :: y :: rest =>
      let j := argmaxList (y :: rest)
      if x < (y :: rest).getD j 0 then j + 1 else 0

/-! ### Learner: the Double-DQN target of `Agent.learn` -/

/-- The bootstrapped target computed by `Agent.learn` for one batch entry:
`a* = argmax of Q_local(s')` (line 94), evaluated by the target network
(line 95), then `r + γ · Q_target(s', a*) · (1 - done)` (line 98); the
done flag reaches `learn` as a 0/1 float. -/
def ddqnTarget (gamma : ℚ) (qL qT : α → List ℚ) (r : ℚ) (s' : α) (d : Bool) : ℚ :=
  r + gamma * (qT s').getD (argmaxList (qL s')) 0 * (1 - (if d then 1 else 0))

/-- The batched target: `learn` computes the same expression row-wise over
the sampled batch of (reward, next-state, done) entries. -/
def ddqnTargets (gamma : ℚ) (qL qT : α → List ℚ)
    (batch : List (ℚ × α × Bool)) : List ℚ :=
  batch.map (fun e => ddqnTarget gamma qL qT e.1 e.2.1 e.2.2)

/-! ### `Agent.soft_update` -/

/-- Polyak soft update over the zipped parameter pairs
`zip(target_model.parameters(), local_model.parameters())`:
`target_param ← τ·local_param + (1−τ)·target_param`. -/
def softUpdate (tau : ℚ) (tgt loc : List ℚ) : List ℚ :=
  List.zipWith (fun t l => tau * l + (1 - tau) * t) tgt loc

/-! ### Policy Selector: `Agent.act` -/

/-- The mutable state of `qnetwork_local` that `act` can touch: the
training-mode flag (`eval()` / `train()`), the parameters, and the
accumulated gradients. -/
structure LocalNet where
  training : Bool
  params : List ℚ
  grads : List ℚ
deriving DecidableEq, Repr

/-- Model of `Agent.act`.  Here `r` is the outcome of `random.random()` (a value in
`[0,1)`), `choice` the outcome of `random.choice(np.arange(action_size))`
(a value in `[0, actionSize)`).  The greedy branch is taken when
`random.random() > eps`; it switches the network to eval mode, evaluates
the forward pass under `no_grad` (reads `params`, mutates nothing),
switches back to train mode and returns the argmax action.  The result is
(network state after the call, whether the random branch was used, the
chosen action). -/
def act (Q : List ℚ → List ℚ → List ℚ) (net : LocalNet) (actionSize : Nat)
    (state : List ℚ) (eps r : ℚ) (choice : Nat) : LocalNet × Bool × Nat :=
  if eps < r then
    let net1 : LocalNet := { net with training := false }
    let vals := Q net1.params state
    let net2 : LocalNet := { net1 with training := true }
    (net2, false, argmaxList vals)
  else
    (net, true, choice)

/-! ## Lemmas about the Circular Experience Store -/

lemma length_addT (cap : Nat) (mem : List Transition) (e : Transition)
    (hcap : 0 < cap) (hle : mem.length ≤ cap) :
    (addT cap mem e).length = min (mem.length + 1) cap := by
  unfold addT
  split
  · simp only [List.length_append, List.length_tail, List.length_singleton]
    omega
  · simp only [List.length_append, List.length_singleton]
    omega

lemma addT_eq_drop (cap : Nat) (mem : List Transition) (e : Transition)
    (hcap : 0 < cap) (hle : mem.length ≤ cap) :
    addT cap mem e = (mem ++ [e]).drop (mem.length + 1 - cap) := by
  unfold addT
  split
  · have h1 : mem.length + 1 - cap = 1 := by omega
    rw [h1, List.drop_append_of_le_length (by omega), List.drop_one]
  · have h0 : mem.length + 1 - cap = 0 := by omega
    rw [h0, List.drop_zero]

lemma addAll_eq_drop (cap : Nat) (hcap : 0 < cap) :
    ∀ (es mem : List Transition), mem.length ≤ cap →
      addAll cap mem es = (mem ++ es).drop (mem.length + es.length - cap) := by
  intro es
  induction es with
  | nil =>
      intro mem h
      simp only [addAll, List.foldl_nil, List.append_nil, List.length_nil,
        Nat.add_zero]
      have h0 : mem.length - cap = 0 := by omega
      rw [h0, List.drop_zero]
  | cons e rest ih =>
      intro mem h
      have hstep : addAll cap mem (e :: rest) = addAll cap (addT cap mem e) rest := by
        simp [addAll]
      have hlen : (addT cap mem e).length = min (mem.length + 1) cap :=
        length_addT cap mem e hcap h
      have hle2 : (addT cap mem e).length ≤ cap := by omega
      rw [hstep, ih _ hle2, addT_eq_drop cap mem e hcap h]
      rw [← List.drop_append_of_le_length
            (show mem.length + 1 - cap ≤ (mem ++ [e]).length by simp),
          List.drop_drop]
      have hlist : (mem ++ [e]) ++ rest = mem ++ e :: rest := by simp
      rw [hlist]
      congr 1
      simp only [List.length_drop, List.length_append, List.length_singleton,
        List.length_cons, List.length_nil]
      omega

/-- C3: after inserting `cap + k` transitions (k > 0) into an initially
empty store of capacity `cap`, the store holds exactly the last `cap` of
them in insertion order (`es.drop k`) — so its length is `cap`, the oldest
surviving transition is the one inserted at logical index `k`, and
iteration order equals insertion order; `add` is total (never fails). -/
theorem ring_eviction (cap k : Nat) (es : List Transition)
    (hcap : 0 < cap) (hk : 0 < k) (hlen : es.length = cap + k) :
    addAll cap [] es = es.drop k ∧
    (addAll cap [] es).length = cap ∧
    (addAll cap [] es).getD 0 dfltT = es.getD k dfltT := by
  have h := addAll_eq_drop cap hcap es [] (by simp)
  simp only [List.length_nil, List.nil_append, Nat.zero_add] at h
  rw [hlen] at h
  have hk' : cap + k - cap = k := by omega
  rw [hk'] at h
  refine ⟨h, ?_, ?_⟩
  · rw [h, List.length_drop]; omega
  · rw [h, List.getD_eq_getElem?_getD, List.getD_eq_getElem?_getD,
      List.getElem?_drop, Nat.add_zero]

/-- Witness for `ring_eviction` at `cap = 2`, `k = 1` and three concrete
transitions. -/
theorem ring_eviction_witness :
    addAll 2 [] [⟨[0],0,0,[],false⟩, ⟨[1],1,0,[],false⟩, ⟨[2],2,0,[],false⟩] =
      ([⟨[0],0,0,[],false⟩, ⟨[1],1,0,[],false⟩, ⟨[2],2,0,[],false⟩] :
        List Transition).drop 1 ∧
    (addAll 2 [] [⟨[0],0,0,[],false⟩, ⟨[1],1,0,[],false⟩, ⟨[2],2,0,[],false⟩]).length = 2 ∧
    (addAll 2 [] [⟨[0],0,0,[],false⟩, ⟨[1],1,0,[],false⟩, ⟨[2],2,0,[],false⟩]).getD 0 dfltT =
      ([⟨[0],0,0,[],false⟩, ⟨[1],1,0,[],false⟩, ⟨[2],2,0,[],false⟩] :
        List Transition).getD 1 dfltT :=
  ring_eviction 2 1 _ (by decide) (by decide) (by decide)

/-! ## Lemmas about the Update Scheduler -/

lemma runFlags_cons (s : AgentState) (e : Transition) (rest : List Transition) :
    runFlags s (e :: rest) = (stepAgent s e).2 :: runFlags (stepAgent s e).1 rest := rfl

lemma runAgent_cons (s : AgentState) (e : Transition) (rest : List Transition) :
    runAgent s (e :: rest) = runAgent (stepAgent s e).1 rest := rfl

lemma runFlags_length (es : List Transition) :
    ∀ s : AgentState, (runFlags s es).length = es.length := by
  induction es with
  | nil => intro s; rfl
  | cons e rest ih => intro s; rw [runFlags_cons, List.length_cons, ih, List.length_cons]

lemma stepAgent_memory_length (s : AgentState) (e : Transition)
    (hle : s.memory.length ≤ BUFFER_SIZE) :
    ((stepAgent s e).1).memory.length = min (s.memory.length + 1) BUFFER_SIZE :=
  length_addT BUFFER_SIZE s.memory e (by norm_num [BUFFER_SIZE]) hle

lemma runAgent_memory_length (es : List Transition) :
    ∀ s : AgentState, s.memory.length ≤ BUFFER_SIZE →
      (runAgent s es).memory.length = min (s.memory.length + es.length) BUFFER_SIZE := by
  induction es with
  | nil =>
      intro s h
      simp only [runAgent, List.foldl_nil, List.length_nil, Nat.add_zero]
      omega
  | cons e rest ih =>
      intro s h
      rw [runAgent_cons, ih _ (by rw [stepAgent_memory_length s e h]; omega),
        stepAgent_memory_length s e h, List.length_cons]
      omega

lemma runFlags_true_zero (s : AgentState) (e : Transition) (rest : List Transition)
    (hle : s.memory.length ≤ BUFFER_SIZE)
    (hfl : (runFlags s (e :: rest)).getD 0 false = true) :
    (s.tStep + 0 + 1) % UPDATE_EVERY = 0 ∧
    BATCH_SIZE < min (s.memory.length + 0 + 1) BUFFER_SIZE := by
  rw [runFlags_cons, List.getD_cons_zero] at hfl
  have hflag : (stepAgent s e).2 = decide ((s.tStep + 1) % UPDATE_EVERY = 0 ∧
      BATCH_SIZE < (addT BUFFER_SIZE s.memory e).length) := rfl
  rw [hflag, decide_eq_true_eq] at hfl
  have hl := length_addT BUFFER_SIZE s.memory e (by norm_num [BUFFER_SIZE]) hle
  rw [hl] at hfl
  exact ⟨hfl.1, hfl.2⟩

lemma runFlags_true_succ_arith (s : AgentState) (i : Nat)
    (h : (((s.tStep + 1) % UPDATE_EVERY) + i + 1) % UPDATE_EVERY = 0 ∧
      BATCH_SIZE < min (min (s.memory.length + 1) BUFFER_SIZE + i + 1) BUFFER_SIZE) :
    (s.tStep + (i + 1) + 1) % UPDATE_EVERY = 0 ∧
    BATCH_SIZE < min (s.memory.length + (i + 1) + 1) BUFFER_SIZE := by
  obtain ⟨h1, h2⟩ := h
  constructor
  · simp only [UPDATE_EVERY] at h1 ⊢
    omega
  · simp only [BATCH_SIZE, BUFFER_SIZE] at h2 ⊢
    omega

lemma runFlags_true_imp (es : List Transition) :
    ∀ (s : AgentState) (i : Nat), s.memory.length ≤ BUFFER_SIZE →
      (runFlags s es).getD i false = true →
      (s.tStep + i + 1) % UPDATE_EVERY = 0 ∧
      BATCH_SIZE < min (s.memory.length + i + 1) BUFFER_SIZE := by
  induction es with
  | nil => intro s i _ hfl; simp [runFlags] at hfl
  | cons e rest ih =>
      intro s i hle hfl
      cases i with
      | zero => exact runFlags_true_zero s e rest hle hfl
      | succ i =>
          rw [runFlags_cons, List.getD_cons_succ] at hfl
          have hmem := stepAgent_memory_length s e hle
          have h := ih (stepAgent s e).1 i (by rw [hmem]; omega) hfl
          rw [hmem] at h
          have htst : ((stepAgent s e).1).tStep = (s.tStep + 1) % UPDATE_EVERY := rfl
          rw [htst] at h
          exact runFlags_true_succ_arith s i h

/-- C6: starting from a freshly initialized agent, whenever the `i`-th call
to `Agent.step` (0-based) triggers a learning step, then at least three
calls preceded it (no learning before the 4th call), the step counter has
just wrapped (`(i+1) % UPDATE_EVERY = 0`), and the store holds strictly
more than `BATCH_SIZE` transitions at that moment. -/
theorem scheduling_gating (es : List Transition) (i : Nat)
    (hfl : (runFlags initAgent es).getD i false = true) :
    3 ≤ i ∧ (i + 1) % UPDATE_EVERY = 0 ∧
    BATCH_SIZE < (runAgent initAgent (es.take (i + 1))).memory.length := by
  have h := runFlags_true_imp es initAgent i (by simp [initAgent]) hfl
  simp only [initAgent, List.length_nil, Nat.zero_add] at h
  have hi : i < es.length := by
    by_contra hge
    push_neg at hge
    rw [List.getD_eq_default _ _ (by rw [runFlags_length]; exact hge)] at hfl
    exact Bool.false_ne_true hfl
  have htake : (es.take (i + 1)).length = i + 1 := by
    rw [List.length_take]
    omega
  have hrun := runAgent_memory_length (es.take (i + 1)) initAgent (by simp [initAgent])
  simp only [initAgent, List.length_nil, Nat.zero_add, htake] at hrun
  simp only [initAgent]
  rw [hrun]
  obtain ⟨h1, h2⟩ := h
  refine ⟨?_, h1, h2⟩
  simp only [BATCH_SIZE, BUFFER_SIZE] at h2
  omega

/-- Witness for `scheduling_gating`: a run of 36 identical transitions
triggers a learning step at the 36th call. -/
theorem scheduling_gating_witness :
    3 ≤ 35 ∧ (35 + 1) % UPDATE_EVERY = 0 ∧
    BATCH_SIZE <
      (runAgent initAgent
        ((List.replicate 36 (⟨[0], 0, 0, [0], false⟩ : Transition)).take (35 + 1))).memory.length :=
  scheduling_gating (List.replicate 36 ⟨[0], 0, 0, [0], false⟩) 35 (by decide)

/-! ## Lemmas about `argmaxList` -/

lemma argmaxList_lt (l : List ℚ) (h : l ≠ []) : argmaxList l < l.length := by
  induction l with
  | nil => exact absurd rfl h
  | cons x tl ih =>
      cases tl with
      | nil => simp [argmaxList]
      | cons y rest =>
          have iht := ih (by simp)
          simp only [argmaxList]
          split
          · simp only [List.length_cons] at iht ⊢
            omega
          · simp [List.length_cons]

lemma argmaxList_ge (l : List ℚ) : ∀ j, j < l.length → l.getD j 0 ≤ l.getD (argmaxList l) 0 := by
  induction l with
  | nil => intro j hj; simp at hj
  | cons x tl ih =>
      cases tl with
      | nil =>
          intro j hj
          have hj0 : j = 0 := by simpa using hj
          subst hj0
          simp [argmaxList]
      | cons y rest =>
          intro j hj
          by_cases hcmp : x < (y :: rest).getD (argmaxList (y :: rest)) 0
          · have hidx : argmaxList (x :: y :: rest) = argmaxList (y :: rest) + 1 := by
              show (if x < (y :: rest).getD (argmaxList (y :: rest)) 0 then
                  argmaxList (y :: rest) + 1 else 0) = argmaxList (y :: rest) + 1
              rw [if_pos hcmp]
            rw [hidx, List.getD_cons_succ]
            cases j with
            | zero => rw [List.getD_cons_zero]; exact le_of_lt hcmp
            | succ j => rw [List.getD_cons_succ]; exact ih j (by simpa using hj)
          · have hidx : argmaxList (x :: y :: rest) = 0 := by
              show (if x < (y :: rest).getD (argmaxList (y :: rest)) 0 then
                  argmaxList (y :: rest) + 1 else 0) = 0
              rw [if_neg hcmp]
            rw [hidx, List.getD_cons_zero]
            cases j with
            | zero => rw [List.getD_cons_zero]
            | succ j =>
                rw [List.getD_cons_succ]
                exact le_trans (ih j (by simpa using hj)) (not_lt.mp hcmp)

/-! ## C1: the Double-DQN target -/

/-- C1: for every batch and discount `gamma`, `learn` computes the target
of each entry as `r + γ · Q_target(s', a*) · (1 - done)` where
`a* = argmaxList (Q_local s')` is selected by the local network (it is an
index of a maximal local Q-value) and evaluated by the target network;
and for every entry with `done = 1` the target equals the reward exactly,
for every discount factor. -/
theorem ddqn_target_correct {α : Type} (gamma : ℚ) (qL qT : α → List ℚ)
    (batch : List (ℚ × α × Bool)) (hne : ∀ e ∈ batch, qL e.2.1 ≠ []) :
    ddqnTargets gamma qL qT batch =
      batch.map (fun e => ddqnTarget gamma qL qT e.1 e.2.1 e.2.2) ∧
    (∀ (r : ℚ) (s' : α) (d : Bool), (r, s', d) ∈ batch →
      (ddqnTarget gamma qL qT r s' d =
        r + gamma * (qT s').getD (argmaxList (qL s')) 0 * (1 - (if d then 1 else 0)) ∧
       argmaxList (qL s') < (qL s').length ∧
       (∀ j, j < (qL s').length →
         (qL s').getD j 0 ≤ (qL s').getD (argmaxList (qL s')) 0) ∧
       (∀ g : ℚ, d = true → ddqnTarget g qL qT r s' d = r))) := by
  refine ⟨rfl, ?_⟩
  intro r s' d hmem
  refine ⟨rfl, ?_, ?_, ?_⟩
  · exact argmaxList_lt _ (hne _ hmem)
  · intro j hj
    exact argmaxList_ge _ j hj
  · intro g hd
    subst hd
    simp [ddqnTarget]

/-- Witness for `ddqn_target_correct` at a concrete batch holding one
terminal and one non-terminal entry. -/
theorem ddqn_target_correct_witness :
    ddqnTargets (1/2) (fun _ : Nat => [1, 3, 2]) (fun _ : Nat => [10, 20, 30])
        [(5, 0, true), (7, 1, false)] =
      ([(5, 0, true), (7, 1, false)] : List (ℚ × Nat × Bool)).map
        (fun e => ddqnTarget (1/2) (fun _ : Nat => [1, 3, 2])
          (fun _ : Nat => [10, 20, 30]) e.1 e.2.1 e.2.2) ∧
    (∀ (r : ℚ) (s' : Nat) (d : Bool), (r, s', d) ∈
        ([(5, 0, true), (7, 1, false)] : List (ℚ × Nat × Bool)) →
      (ddqnTarget (1/2) (fun _ : Nat => [1, 3, 2]) (fun _ : Nat => [10, 20, 30]) r s' d =
        r + (1/2) * ((fun _ : Nat => ([10, 20, 30] : List ℚ)) s').getD
          (argmaxList ((fun _ : Nat => ([1, 3, 2] : List ℚ)) s')) 0 *
          (1 - (if d then 1 else 0)) ∧
       argmaxList ((fun _ : Nat => ([1, 3, 2] : List ℚ)) s') <
         ((fun _ : Nat => ([1, 3, 2] : List ℚ)) s').length ∧
       (∀ j, j < ((fun _ : Nat => ([1, 3, 2] : List ℚ)) s').length →
         ((fun _ : Nat => ([1, 3, 2] : List ℚ)) s').getD j 0 ≤
           ((fun _ : Nat => ([1, 3, 2] : List ℚ)) s').getD
             (argmaxList ((fun _ : Nat => ([1, 3, 2] : List ℚ)) s')) 0) ∧
       (∀ g : ℚ, d = true →
         ddqnTarget g (fun _ : Nat => [1, 3, 2]) (fun _ : Nat => [10, 20, 30]) r s' d = r))) :=
  ddqn_target_correct (1/2) _ _ _ (by intro e _; simp)

/-! ## C5: the Polyak soft update -/

lemma softUpdate_one : ∀ (tgt loc : List ℚ), tgt.length = loc.length →
    softUpdate 1 tgt loc = loc := by
  intro tgt
  induction tgt with
  | nil =>
      intro loc h
      cases loc with
      | nil => rfl
      | cons l ls => simp at h
  | cons t ts ih =>
      intro loc h
      cases loc with
      | nil => simp at h
      | cons l ls =>
          simp only [softUpdate, List.zipWith_cons_cons]
          rw [show (1 : ℚ) * l + (1 - 1) * t = l by ring]
          have := ih ls (by simpa using h)
          simp only [softUpdate] at this
          rw [this]

lemma softUpdate_zero : ∀ (tgt loc : List ℚ), tgt.length = loc.length →
    softUpdate 0 tgt loc = tgt := by
  intro tgt
  induction tgt with
  | nil => intro loc h; rfl
  | cons t ts ih =>
      intro loc h
      cases loc with
      | nil => simp at h
      | cons l ls =>
          simp only [softUpdate, List.zipWith_cons_cons]
          rw [show (0 : ℚ) * l + (1 - 0) * t = t by ring]
          have := ih ls (by simpa using h)
          simp only [softUpdate] at this
          rw [this]

lemma softUpdate_getD (tau : ℚ) : ∀ (tgt loc : List ℚ) (i : Nat),
    i < tgt.length → tgt.length = loc.length →
    (softUpdate tau tgt loc).getD i 0 =
      tau * loc.getD i 0 + (1 - tau) * tgt.getD i 0 := by
  intro tgt
  induction tgt with
  | nil => intro loc i hi _; simp at hi
  | cons t ts ih =>
      intro loc i hi h
      cases loc with
      | nil => simp at h
      | cons l ls =>
          cases i with
          | zero => simp [softUpdate]
          | succ i =>
              simp only [softUpdate, List.zipWith_cons_cons, List.getD_cons_succ]
              exact ih ls i (by simpa using hi) (by simpa using h)

/-- C5: `soft_update` sets every target parameter to
`τ·local + (1−τ)·target` (pairing the two parameter sequences in order);
with `τ = 1` the update is a full copy of the local parameters, and with
`τ = 0` the target parameters are unchanged. -/
theorem soft_update_correct (tau : ℚ) (tgt loc : List ℚ)
    (hlen : tgt.length = loc.length) :
    (softUpdate tau tgt loc).length = tgt.length ∧
    (∀ i, i < tgt.length →
      (softUpdate tau tgt loc).getD i 0 =
        tau * loc.getD i 0 + (1 - tau) * tgt.getD i 0) ∧
    softUpdate 1 tgt loc = loc ∧
    softUpdate 0 tgt loc = tgt := by
  refine ⟨?_, ?_, softUpdate_one tgt loc hlen, softUpdate_zero tgt loc hlen⟩
  · simp only [softUpdate, List.length_zipWith]
    omega
  · intro i hi
    exact softUpdate_getD tau tgt loc i hi hlen

/-- Witness for `soft_update_correct` at concrete parameter vectors and
`τ = 1/4`. -/
theorem soft_update_correct_witness :
    (softUpdate (1/4) [8, 16] [4, 32]).length = ([8, 16] : List ℚ).length ∧
    (∀ i, i < ([8, 16] : List ℚ).length →
      (softUpdate (1/4) [8, 16] [4, 32]).getD i 0 =
        (1/4) * ([4, 32] : List ℚ).getD i 0 +
          (1 - 1/4) * ([8, 16] : List ℚ).getD i 0) ∧
    softUpdate 1 [8, 16] [4, 32] = [4, 32] ∧
    softUpdate 0 [8, 16] [4, 32] = [8, 16] :=
  soft_update_correct (1/4) [8, 16] [4, 32] (by simp)

/-! ## C8 and C9: the Policy Selector `Agent.act` -/

/-- C8 counterexample: `random.random()` draws from `[0, 1)`, so the
outcome `r = 0` is possible; the greedy test `random.random() > eps` is
strict, so with `eps = 0` this outcome takes the random branch.  The
claim that `eps = 0` never selects via the random branch for every
outcome of the random source is therefore false at `r = 0`. -/
theorem eps_zero_counterexample :
    ((0 : ℚ) ≤ 0 ∧ (0 : ℚ) < 1) ∧
    (act (fun _ s => s) ⟨true, [0], []⟩ 2 [1, 2] 0 0 0).2.1 = true := by
  refine ⟨⟨le_refl 0, by norm_num⟩, ?_⟩
  simp [act]

/-- C8 (amended): the branch of `act` is decided by `random.random() > eps`.
With `eps = 0`, every outcome `r > 0` — all outcomes of
`random.random() ∈ [0, 1)` except the single value `r = 0` — takes the
greedy branch and returns the argmax of the local network's values; with
`eps = 1` every outcome takes the random branch and returns the drawn
action, which lies in `[0, action_size)`. -/
theorem eps_bounds (Q : List ℚ → List ℚ → List ℚ) (net : LocalNet) (aSz : Nat)
    (st : List ℚ) (r : ℚ) (choice : Nat)
    (hr0 : 0 ≤ r) (hr1 : r < 1) (hc : choice < aSz) :
    (0 < r →
      (act Q net aSz st 0 r choice).2.1 = false ∧
      (act Q net aSz st 0 r choice).2.2 = argmaxList (Q net.params st)) ∧
    (act Q net aSz st 1 r choice).2.1 = true ∧
    (act Q net aSz st 1 r choice).2.2 = choice ∧
    (act Q net aSz st 1 r choice).2.2 < aSz := by
  have hn1 : ¬ (1 : ℚ) < r := not_lt.mpr (le_of_lt hr1)
  refine ⟨?_, ?_, ?_, ?_⟩
  · intro hr
    simp only [act, if_pos hr]
    exact ⟨trivial, trivial⟩
  · simp only [act, if_neg hn1]
  · simp only [act, if_neg hn1]
  · simp only [act, if_neg hn1]
    exact hc

/-- Witness for `eps_bounds` at a concrete network, state and draw. -/
theorem eps_bounds_witness :
    ((0 : ℚ) < 1/2 →
      (act (fun _ s => s) ⟨true, [1, 2], []⟩ 3 [5, 9] 0 (1/2) 2).2.1 = false ∧
      (act (fun _ s => s) ⟨true, [1, 2], []⟩ 3 [5, 9] 0 (1/2) 2).2.2 =
        argmaxList ((fun _ s => s) ([1, 2] : List ℚ) ([5, 9] : List ℚ))) ∧
    (act (fun _ s => s) ⟨true, [1, 2], []⟩ 3 [5, 9] 1 (1/2) 2).2.1 = true ∧
    (act (fun _ s => s) ⟨true, [1, 2], []⟩ 3 [5, 9] 1 (1/2) 2).2.2 = 2 ∧
    (act (fun _ s => s) ⟨true, [1, 2], []⟩ 3 [5, 9] 1 (1/2) 2).2.2 < 3 :=
  eps_bounds (fun _ s => s) ⟨true, [1, 2], []⟩ 3 [5, 9] (1/2) 2
    (by norm_num) (by norm_num) (by norm_num)

/-- C9 counterexample: a greedy call to `act` on a network whose
training-mode flag is `false` before the call returns with the flag set
to `true` — `act` ends with an unconditional `train()`, so the flag is
not restored to its pre-call value. -/
theorem act_train_flag_counterexample :
    (⟨false, [5], []⟩ : LocalNet).training = false ∧
    (act (fun _ s => s) ⟨false, [5], []⟩ 2 [1] 0 1 0).2.1 = false ∧
    (act (fun _ s => s) ⟨false, [5], []⟩ 2 [1] 0 1 0).1.training = true := by
  refine ⟨rfl, ?_, ?_⟩ <;> simp [act]

/-- C9 (amended): on the greedy branch `act` mutates neither the
parameters nor the accumulated gradients of the local network (the
forward pass runs under `no_grad` and no optimizer step is taken), and it
leaves the training-mode flag set to `true`; this coincides with
restoring the pre-call value whenever the network was in training mode
before the call — which holds for every call in this program, since the
networks are constructed in training mode and no other code path leaves
them in eval mode. -/
theorem act_greedy_frame (Q : List ℚ → List ℚ → List ℚ) (net : LocalNet)
    (aSz : Nat) (st : List ℚ) (eps r : ℚ) (choice : Nat) (hgr : eps < r) :
    (act Q net aSz st eps r choice).2.1 = false ∧
    (act Q net aSz st eps r choice).1.params = net.params ∧
    (act Q net aSz st eps r choice).1.grads = net.grads ∧
    (act Q net aSz st eps r choice).1.training = true ∧
    (net.training = true → (act Q net aSz st eps r choice).1.training = net.training) := by
  simp only [act, if_pos hgr]
  exact ⟨trivial, trivial, trivial, trivial, fun h => h.symm⟩

/-- Witness for `act_greedy_frame` at a concrete greedy call. -/
theorem act_greedy_frame_witness :
    (act (fun _ s => s) ⟨true, [3], []⟩ 2 [7] 0 1 0).2.1 = false ∧
    (act (fun _ s => s) ⟨true, [3], []⟩ 2 [7] 0 1 0).1.params =
      (⟨true, [3], []⟩ : LocalNet).params ∧
    (act (fun _ s => s) ⟨true, [3], []⟩ 2 [7] 0 1 0).1.grads =
      (⟨true, [3], []⟩ : LocalNet).grads ∧
    (act (fun _ s => s) ⟨true, [3], []⟩ 2 [7] 0 1 0).1.training = true ∧
    ((⟨true, [3], []⟩ : LocalNet).training = true →
      (act (fun _ s => s) ⟨true, [3], []⟩ 2 [7] 0 1 0).1.training =
        (⟨true, [3], []⟩ : LocalNet).training) :=
  act_greedy_frame (fun _ s => s) ⟨true, [3], []⟩ 2 [7] 0 1 0 (by norm_num)

/-! ## Lemmas about the Frame-History Encoder -/

lemma scanStart_bounds (mem : List Transition) :
    ∀ (l : List Nat) (acc lo hi : Nat), lo ≤ acc → acc ≤ hi →
      (∀ j ∈ l, lo ≤ j + 1 ∧ j + 1 ≤ hi) →
      lo ≤ l.foldl (fun acc j => if (getT mem j).done then j + 1 else acc) acc ∧
      l.foldl (fun acc j => if (getT mem j).done then j + 1 else acc) acc ≤ hi := by
  intro l
  induction l with
  | nil => intro acc lo hi h1 h2 _; exact ⟨h1, h2⟩
  | cons a l ih =>
      intro acc lo hi h1 h2 hall
      simp only [List.foldl_cons]
      have hfa : lo ≤ (if (getT mem a).done then a + 1 else acc) ∧
          (if (getT mem a).done then a + 1 else acc) ≤ hi := by
        split
        · exact hall a (by simp)
        · exact ⟨h1, h2⟩
      exact ih _ lo hi hfa.1 hfa.2 (fun j hj => hall j (by simp [hj]))

lemma foldl_scan_no_done (mem : List Transition) :
    ∀ (l : List Nat) (acc : Nat), (∀ j ∈ l, (getT mem j).done = false) →
      l.foldl (fun acc j => if (getT mem j).done then j + 1 else acc) acc = acc := by
  intro l
  induction l with
  | nil => intro acc _; rfl
  | cons a l ih =>
      intro acc hall
      simp only [List.foldl_cons, hall a (by simp), Bool.false_eq_true, if_false]
      exact ih acc (fun j hj => hall j (by simp [hj]))

lemma encodeStart_bounds (mem : List Transition) (H idx : Nat) :
    idx + 1 - H ≤ encodeStart mem H idx ∧
    encodeStart mem H idx ≤ max (idx + 1 - H) idx := by
  unfold encodeStart
  apply scanStart_bounds
  · exact le_refl _
  · exact le_max_left _ _
  · intro j hj
    rw [List.mem_range'_1] at hj
    omega

lemma encodeFrames_length (mem : List Transition) (H idx : Nat) :
    (encodeFrames mem H idx).length = H := by
  have hb := encodeStart_bounds mem H idx
  unfold encodeFrames
  simp only [List.length_append, List.length_replicate, List.length_map,
    List.length_range']
  omega

/-- C4: for every target index, `_encode_state` assembles a stack of
exactly `frame_history` frames: a zero-frame prefix of length
`missing_context` followed by the stored frames of the surviving window;
in particular, encoding index 0 in a store holding exactly one transition
with `H = 4` yields 3 zero frames followed by the one real frame. -/
theorem zero_padding (mem : List Transition) (H idx : Nat) (hn : 0 < mem.length) :
    (encodeFrames mem H idx).length = H ∧
    encodeFrames mem H idx =
      List.replicate (H - (idx + 1 - encodeStart mem H idx)) (zeroFrame mem) ++
        (List.range' (encodeStart mem H idx) (idx + 1 - encodeStart mem H idx)).map
          (fun j => (getT mem j).state) ∧
    (∀ t : Transition, encodeFrames [t] 4 0 =
      List.replicate 3 (t.state.map (fun _ => 0)) ++ [t.state]) := by
  refine ⟨encodeFrames_length mem H idx, rfl, ?_⟩
  intro t
  have hs : encodeStart [t] 4 0 = 0 := rfl
  unfold encodeFrames
  rw [hs]
  norm_num
  have h1 : zeroFrame [t] = t.state.map (fun _ => 0) := rfl
  have h2 : getT [t] 0 = t := rfl
  rw [h1, h2]
  simp [List.map_const']

/-- Witness for `zero_padding` at a one-transition store, `H = 4`,
index 0. -/
theorem zero_padding_witness :
    (encodeFrames [⟨[7], 0, 0, [], false⟩] 4 0).length = 4 ∧
    encodeFrames [⟨[7], 0, 0, [], false⟩] 4 0 =
      List.replicate (4 - (0 + 1 - encodeStart [⟨[7], 0, 0, [], false⟩] 4 0))
          (zeroFrame [⟨[7], 0, 0, [], false⟩]) ++
        (List.range' (encodeStart [⟨[7], 0, 0, [], false⟩] 4 0)
            (0 + 1 - encodeStart [⟨[7], 0, 0, [], false⟩] 4 0)).map
          (fun j => (getT [⟨[7], 0, 0, [], false⟩] j).state) ∧
    (∀ t : Transition, encodeFrames [t] 4 0 =
      List.replicate 3 (t.state.map (fun _ => 0)) ++ [t.state]) :=
  zero_padding [⟨[7], 0, 0, [], false⟩] 4 0 (by simp)

lemma encodeStart_boundary (mem : List Transition) (H idx b : Nat)
    (hb1 : idx + 1 - H ≤ b) (hb2 : b < idx) (hbd : (getT mem b).done = true)
    (hmax : ∀ j, b < j → j < idx → (getT mem j).done = false) :
    encodeStart mem H idx = b + 1 := by
  unfold encodeStart
  have hsplit1 : List.range' (idx + 1 - H) (b - (idx + 1 - H)) ++
      List.range' b (idx - b) = List.range' (idx + 1 - H) (idx - (idx + 1 - H)) := by
    have h := List.range'_append (idx + 1 - H) (b - (idx + 1 - H)) (idx - b) 1
    have he1 : idx + 1 - H + 1 * (b - (idx + 1 - H)) = b := by omega
    have he2 : idx - b + (b - (idx + 1 - H)) = idx - (idx + 1 - H) := by omega
    rw [he1, he2] at h
    exact h
  have hsplit2 : List.range' b (idx - b) = b :: List.range' (b + 1) (idx - b - 1) := by
    have h := List.range'_succ b (idx - b - 1) 1
    rw [show idx - b - 1 + 1 = idx - b by omega] at h
    exact h
  rw [← hsplit1, hsplit2, List.foldl_append, List.foldl_cons]
  show List.foldl (fun acc j => if (getT mem j).done then j + 1 else acc)
      (if (getT mem b).done then b + 1 else
        List.foldl (fun acc j => if (getT mem j).done then j + 1 else acc)
          (idx + 1 - H) (List.range' (idx + 1 - H) (b - (idx + 1 - H))))
      (List.range' (b + 1) (idx - b - 1)) = b + 1
  rw [if_pos hbd]
  apply foldl_scan_no_done
  intro j hj
  rw [List.mem_range'_1] at hj
  exact hmax j (by omega) (by omega)

/-- C2: if a `done=True` transition lies strictly before the target index
within the lookback window `[idx-H+1, idx-1]`, and `b` is the most recent
such boundary, then `_encode_state` starts the surviving window at `b+1`
and replaces every frame at or before `b` with zero-valued frames of the
same shape as a real frame: the stack is the zero padding followed by the
frames of indices `b+1 … idx` only. -/
theorem episode_boundary_isolation (mem : List Transition) (H idx b : Nat)
    (hn : 0 < mem.length)
    (hb1 : idx + 1 - H ≤ b) (hb2 : b < idx) (hbd : (getT mem b).done = true)
    (hmax : ∀ j, b < j → j < idx → (getT mem j).done = false) :
    encodeStart mem H idx = b + 1 ∧
    encodeFrames mem H idx =
      List.replicate (H - (idx - b)) (zeroFrame mem) ++
        (List.range' (b + 1) (idx - b)).map (fun j => (getT mem j).state) ∧
    (∀ f ∈ (encodeFrames mem H idx).take (H - (idx - b)), f = zeroFrame mem) ∧
    (zeroFrame mem).length = (mem.getD 0 dfltT).state.length := by
  have hs := encodeStart_boundary mem H idx b hb1 hb2 hbd hmax
  have harith : idx + 1 - (b + 1) = idx - b := by omega
  have hfr : encodeFrames mem H idx =
      List.replicate (H - (idx - b)) (zeroFrame mem) ++
        (List.range' (b + 1) (idx - b)).map (fun j => (getT mem j).state) := by
    unfold encodeFrames
    rw [hs, harith]
  refine ⟨hs, hfr, ?_, by simp [zeroFrame]⟩
  rw [hfr, List.take_left' (by rw [List.length_replicate])]
  intro f hf
  exact List.eq_of_mem_replicate hf

/-- Witness for `episode_boundary_isolation` on the spec's example store
`[A(done=False), B(done=True), C(done=False)]` with `H = 2`, target index
2: one zero frame followed by C's frame only. -/
theorem episode_boundary_isolation_witness :
    encodeStart [⟨[10], 0, 0, [], false⟩, ⟨[20], 0, 0, [], true⟩,
        ⟨[30], 0, 0, [], false⟩] 2 2 = 1 + 1 ∧
    encodeFrames [⟨[10], 0, 0, [], false⟩, ⟨[20], 0, 0, [], true⟩,
        ⟨[30], 0, 0, [], false⟩] 2 2 =
      List.replicate (2 - (2 - 1))
          (zeroFrame [⟨[10], 0, 0, [], false⟩, ⟨[20], 0, 0, [], true⟩,
            ⟨[30], 0, 0, [], false⟩]) ++
        (List.range' (1 + 1) (2 - 1)).map
          (fun j => (getT [⟨[10], 0, 0, [], false⟩, ⟨[20], 0, 0, [], true⟩,
            ⟨[30], 0, 0, [], false⟩] j).state) ∧
    (∀ f ∈ (encodeFrames [⟨[10], 0, 0, [], false⟩, ⟨[20], 0, 0, [], true⟩,
        ⟨[30], 0, 0, [], false⟩] 2 2).take (2 - (2 - 1)),
      f = zeroFrame [⟨[10], 0, 0, [], false⟩, ⟨[20], 0, 0, [], true⟩,
        ⟨[30], 0, 0, [], false⟩]) ∧
    (zeroFrame [⟨[10], 0, 0, [], false⟩, ⟨[20], 0, 0, [], true⟩,
        ⟨[30], 0, 0, [], false⟩]).length =
      (([⟨[10], 0, 0, [], false⟩, ⟨[20], 0, 0, [], true⟩,
        ⟨[30], 0, 0, [], false⟩] : List Transition).getD 0 dfltT).state.length :=
  episode_boundary_isolation _ 2 2 1 (by simp) (by omega) (by omega) (by decide)
    (by intro j h1 h2; omega)

/-! ## C7: the Sampler -/

/-- C7: given the outcome of the uniform without-replacement draw — a list
of `batch_size` distinct indices in `[0, length)`, available only when the
store length exceeds the batch size — `sample` returns five batch-stacked
lists: for the `j`-th drawn index `i`, the `j`-th entries are the encoded
state of `i`, the stored action, the stored reward, the encoded next
state of `i + 1`, and the done flag converted to 0/1. -/
theorem sample_batch (mem : List Transition) (H : Nat) (idxs : List Nat)
    (hgt : idxs.length < mem.length) (hnd : idxs.Nodup)
    (hin : ∀ i ∈ idxs, i < mem.length) :
    (sampleStacks mem H idxs).1 = idxs.map (fun i => encodeState mem H i) ∧
    (sampleStacks mem H idxs).2.1 = idxs.map (fun i => (mem.getD i dfltT).action) ∧
    (sampleStacks mem H idxs).2.2.1 = idxs.map (fun i => (mem.getD i dfltT).reward) ∧
    (sampleStacks mem H idxs).2.2.2.1 = idxs.map (fun i => encodeState mem H (i + 1)) ∧
    (sampleStacks mem H idxs).2.2.2.2 =
      idxs.map (fun i => if (mem.getD i dfltT).done then (1 : ℚ) else 0) ∧
    (sampleStacks mem H idxs).1.length = idxs.length ∧
    (∀ d ∈ (sampleStacks mem H idxs).2.2.2.2, d = 0 ∨ d = 1) := by
  refine ⟨?_, ?_, ?_, ?_, ?_, ?_, ?_⟩
  · simp [sampleStacks, getExperiences, List.map_map]
  · simp [sampleStacks, getExperiences, List.map_map]
  · simp [sampleStacks, getExperiences, List.map_map]
  · simp [sampleStacks, getExperiences, List.map_map]
  · simp [sampleStacks, getExperiences, List.map_map]
  · simp [sampleStacks, getExperiences]
  · intro d hd
    simp only [sampleStacks, getExperiences, List.map_map, List.mem_map,
      Function.comp] at hd
    obtain ⟨i, _, hdef⟩ := hd
    by_cases h : (mem.getD i dfltT).done
    · right
      rw [← hdef, if_pos h]
    · left
      rw [← hdef, if_neg h]

/-- A small concrete store used to witness the sampler theorem. -/
def memW : List Transition :=
  [⟨[1], 1, 2, [], false⟩, ⟨[3], 0, 1, [], true⟩, ⟨[5], 2, 0, [], false⟩]

/-- Witness for `sample_batch` on a three-transition store with the drawn
index list `[1, 0]`. -/
theorem sample_batch_witness :
    (sampleStacks memW 1 [1, 0]).1 = ([1, 0] : List Nat).map (fun i => encodeState memW 1 i) ∧
    (sampleStacks memW 1 [1, 0]).2.1 =
      ([1, 0] : List Nat).map (fun i => (memW.getD i dfltT).action) ∧
    (sampleStacks memW 1 [1, 0]).2.2.1 =
      ([1, 0] : List Nat).map (fun i => (memW.getD i dfltT).reward) ∧
    (sampleStacks memW 1 [1, 0]).2.2.2.1 =
      ([1, 0] : List Nat).map (fun i => encodeState memW 1 (i + 1)) ∧
    (sampleStacks memW 1 [1, 0]).2.2.2.2 =
      ([1, 0] : List Nat).map (fun i => if (memW.getD i dfltT).done then (1 : ℚ) else 0) ∧
    (sampleStacks memW 1 [1, 0]).1.length = ([1, 0] : List Nat).length ∧
    (∀ d ∈ (sampleStacks memW 1 [1, 0]).2.2.2.2, d = 0 ∨ d = 1) :=
  sample_batch memW 1 [1, 0] (by decide) (by decide) (by decide)

/-! ## C10: the stored `next_state` field is never read -/

lemma map_next_getD (mem : List Transition) (f : Transition → Frame) (i : Nat) :
    ((mem.map (fun t => { t with next_state := f t })).getD i dfltT).state =
        (mem.getD i dfltT).state ∧
    ((mem.map (fun t => { t with next_state := f t })).getD i dfltT).action =
        (mem.getD i dfltT).action ∧
    ((mem.map (fun t => { t with next_state := f t })).getD i dfltT).reward =
        (mem.getD i dfltT).reward ∧
    ((mem.map (fun t => { t with next_state := f t })).getD i dfltT).done =
        (mem.getD i dfltT).done := by
  simp only [List.getD_eq_getElem?_getD, List.getElem?_map]
  cases mem[i]? with
  | none => exact ⟨rfl, rfl, rfl, rfl⟩
  | some t => exact ⟨rfl, rfl, rfl, rfl⟩

lemma getT_map_next (mem : List Transition) (f : Transition → Frame) (j : Nat) :
    (getT (mem.map (fun t => { t with next_state := f t })) j).state =
        (getT mem j).state ∧
    (getT (mem.map (fun t => { t with next_state := f t })) j).done =
        (getT mem j).done := by
  unfold getT
  rw [List.length_map]
  exact ⟨(map_next_getD mem f _).1, (map_next_getD mem f _).2.2.2⟩

lemma zeroFrame_map_next (mem : List Transition) (f : Transition → Frame) :
    zeroFrame (mem.map (fun t => { t with next_state := f t })) = zeroFrame mem := by
  unfold zeroFrame
  rw [(map_next_getD mem f 0).1]

lemma encodeStart_map_next (mem : List Transition) (f : Transition → Frame)
    (H idx : Nat) :
    encodeStart (mem.map (fun t => { t with next_state := f t })) H idx =
      encodeStart mem H idx := by
  unfold encodeStart
  have hfun : (fun (acc j : Nat) =>
      if (getT (mem.map (fun t => { t with next_state := f t })) j).done
      then j + 1 else acc) =
      (fun (acc j : Nat) => if (getT mem j).done then j + 1 else acc) := by
    funext acc j
    rw [(getT_map_next mem f j).2]
  rw [hfun]

lemma encodeFrames_map_next (mem : List Transition) (f : Transition → Frame)
    (H idx : Nat) :
    encodeFrames (mem.map (fun t => { t with next_state := f t })) H idx =
      encodeFrames mem H idx := by
  unfold encodeFrames
  rw [encodeStart_map_next, zeroFrame_map_next]
  have hfun : (fun (j : Nat) =>
      (getT (mem.map (fun t => { t with next_state := f t })) j).state) =
      (fun (j : Nat) => (getT mem j).state) := by
    funext j
    exact (getT_map_next mem f j).1
  rw [hfun]

lemma encodeState_map_next (mem : List Transition) (f : Transition → Frame)
    (H idx : Nat) :
    encodeState (mem.map (fun t => { t with next_state := f t })) H idx =
      encodeState mem H idx := by
  unfold encodeState
  rw [encodeFrames_map_next]

lemma getExperiences_map_next (mem : List Transition) (f : Transition → Frame)
    (H : Nat) (idxs : List Nat) :
    getExperiences (mem.map (fun t => { t with next_state := f t })) H idxs =
      getExperiences mem H idxs := by
  unfold getExperiences
  apply List.map_congr_left
  intro idx _
  simp only [Encoded.mk.injEq]
  exact ⟨encodeState_map_next mem f H idx, (map_next_getD mem f idx).2.1,
    (map_next_getD mem f idx).2.2.1, encodeState_map_next mem f H (idx + 1),
    (map_next_getD mem f idx).2.2.2⟩

lemma encodeFrames_last (mem : List Transition) (H : Nat)
    (hn : 0 < mem.length) (hH : 0 < H) :
    (encodeFrames mem H mem.length).getD (H - 1) [] = (mem.getD 0 dfltT).state := by
  have hb := encodeStart_bounds mem H mem.length
  have hub : encodeStart mem H mem.length ≤ mem.length := by omega
  have hc1 : 1 ≤ mem.length + 1 - encodeStart mem H mem.length := by omega
  have hcH : mem.length + 1 - encodeStart mem H mem.length ≤ H := by omega
  unfold encodeFrames
  rw [List.getD_append_right _ _ _ _ (by rw [List.length_replicate]; omega)]
  rw [List.length_replicate]
  rw [show H - 1 - (H - (mem.length + 1 - encodeStart mem H mem.length)) =
      mem.length + 1 - encodeStart mem H mem.length - 1 by omega]
  rw [List.getD_eq_getElem?_getD, List.getElem?_map,
    List.getElem?_range' _ _ (show mem.length + 1 - encodeStart mem H mem.length - 1 <
      mem.length + 1 - encodeStart mem H mem.length by omega)]
  rw [show encodeStart mem H mem.length +
      1 * (mem.length + 1 - encodeStart mem H mem.length - 1) = mem.length by omega]
  show (getT mem mem.length).state = (mem.getD 0 dfltT).state
  unfold getT
  rw [Nat.mod_self]

/-- C10: the stored `next_state` field of a transition is never read by
the encoder or the sampler — rewriting every stored `next_state`
arbitrarily leaves `sample`'s output unchanged; the next-state stack of a
sampled index is built from the `state` frames only.  Consequently,
encoding index `length` (the next-state encoding of the newest
transition) wraps around via `idx % n`: its most recent frame is the
stored `state` of physical index 0, not a genuine successor observation;
and `get_experiences` at the newest index `length - 1` produces exactly
that encoding `_encode_state(length)` as the next state. -/
theorem next_state_never_read (mem : List Transition) (H : Nat)
    (hn : 0 < mem.length) (hH : 0 < H) :
    (∀ (f : Transition → Frame) (idxs : List Nat),
      sampleStacks (mem.map (fun t => { t with next_state := f t })) H idxs =
        sampleStacks mem H idxs) ∧
    (encodeFrames mem H mem.length).getD (H - 1) [] = (mem.getD 0 dfltT).state ∧
    (getExperiences mem H [mem.length - 1]).map (fun e => e.next_state) =
      [encodeState mem H mem.length] := by
  refine ⟨?_, encodeFrames_last mem H hn hH, ?_⟩
  · intro f idxs
    unfold sampleStacks
    rw [getExperiences_map_next]
  · unfold getExperiences
    rw [List.map_map, List.map_cons, List.map_nil]
    simp only [Function.comp]
    rw [show mem.length - 1 + 1 = mem.length by omega]

/-- Witness for `next_state_never_read` on a concrete two-transition
store with `H = 2`. -/
theorem next_state_never_read_witness :
    (∀ (f : Transition → Frame) (idxs : List Nat),
      sampleStacks (([⟨[2], 0, 0, [9], false⟩, ⟨[4], 1, 0, [9], false⟩] :
          List Transition).map (fun t => { t with next_state := f t })) 2 idxs =
        sampleStacks [⟨[2], 0, 0, [9], false⟩, ⟨[4], 1, 0, [9], false⟩] 2 idxs) ∧
    (encodeFrames [⟨[2], 0, 0, [9], false⟩, ⟨[4], 1, 0, [9], false⟩] 2
        ([⟨[2], 0, 0, [9], false⟩, ⟨[4], 1, 0, [9], false⟩] :
          List Transition).length).getD (2 - 1) [] =
      (([⟨[2], 0, 0, [9], false⟩, ⟨[4], 1, 0, [9], false⟩] :
        List Transition).getD 0 dfltT).state ∧
    (getExperiences [⟨[2], 0, 0, [9], false⟩, ⟨[4], 1, 0, [9], false⟩] 2
        [([⟨[2], 0, 0, [9], false⟩, ⟨[4], 1, 0, [9], false⟩] :
          List Transition).length - 1]).map (fun e => e.next_state) =
      [encodeState [⟨[2], 0, 0, [9], false⟩, ⟨[4], 1, 0, [9], false⟩] 2
        ([⟨[2], 0, 0, [9], false⟩, ⟨[4], 1, 0, [9], false⟩] :
          List Transition).length] :=
  next_state_never_read [⟨[2], 0, 0, [9], false⟩, ⟨[4], 1, 0, [9], false⟩] 2
    (by simp) (by norm_num)

end DDQN
